import Mathlib

/-!
# Verification of the InspectionBot launch description and its orchestration core

This development shallowly embeds `src/launch/launch_inspection_bot.launch.py`
(a ROS 2 launch file) and, for the components the specification describes but
the repository does not implement (the dependency resolver, parameter broker
and process supervisor of the orchestration core), models them from the
specification's own words.

The launch file is a pure function of the package-share resolution and the
process environment; it builds launch actions (external processes, included
launch descriptions and ROS 2 nodes) and returns a `LaunchDescription` list.
We embed actions as an inductive type, parameter/argument values as literals
or launch-configuration substitutions, and the function itself as a Lean
function over `pkgShare : String → String` and `env : String → Option String`.
-/

set_option maxHeartbeats 1000000

namespace InspectionBot

/-- A launch substitution: either literal text or a `LaunchConfiguration`
reference with a default, resolved against caller-supplied command-line
overrides. -/
inductive Substitution where
  | text (s : String)
  | launchConfig (name : String) (deflt : String)
  deriving DecidableEq, Repr

/-- Resolve a substitution against the caller-supplied launch-configuration
overrides (`ovr`): a `LaunchConfiguration` takes the caller's value when one
is given and its declared default otherwise; literal text is itself. -/
def Substitution.resolve (ovr : String → Option String) : Substitution → String
  | .text s => s
  | .launchConfig n d => (ovr n).getD d

/-- A value appearing in a node's parameter dictionary: a Python boolean
literal, a string literal, or a substitution. -/
inductive ParamValue where
  | b (v : Bool)
  | s (v : String)
  | subst (v : Substitution)
  deriving DecidableEq, Repr

/-- Render a parameter value as the string handed to the node, resolving
substitutions against the caller overrides. -/
def ParamValue.resolveStr (ovr : String → Option String) : ParamValue → String
  | .b true => "true"
  | .b false => "false"
  | .s v => v
  | .subst sub => sub.resolve ovr

/-- One element of a `Node(parameters=[...])` list: either a path to a YAML
parameter file (passed through opaquely) or an inline dictionary. -/
inductive ParamEntry where
  | file (path : String)
  | dict (entries : List (String × ParamValue))
  deriving DecidableEq, Repr

/-- A launch action as constructed by the launch file: an external OS process
(`ExecuteProcess`), an included launch description with its launch arguments,
or a ROS 2 node with its parameter list and command-line arguments. -/
inductive Action where
  | executeProcess (cmd : List String) (output : String)
  | includeLaunch (source : String) (launchArguments : List (String × Substitution))
  | node (pkg : String) (exec : String) (name : Option String)
      (output : Option String) (params : List ParamEntry) (args : List String)
  deriving DecidableEq, Repr

/-- The value a named parameter / launch argument effectively reaches a unit
with: for an included launch description, its resolved launch argument of that
name; for a node, the last binding of that name among the inline parameter
dictionaries (later parameter sources override earlier ones, and YAML files
are opaque to the launcher); `none` when the unit receives no such parameter. -/
def Action.lookupParam (ovr : String → Option String) (key : String) :
    Action → Option String
  | .executeProcess _ _ => none
  | .includeLaunch _ largs =>
      (largs.find? (fun p => p.1 = key)).map (fun p => p.2.resolve ovr)
  | .node _ _ _ _ params _ =>
      params.foldl
        (fun acc e =>
          match e with
          | .file _ => acc
          | .dict entries =>
              match entries.find? (fun p => p.1 = key) with
              | some p => some (p.2.resolveStr ovr)
              | none => acc)
        none

/-! ## Embedding of `generate_launch_description`

Each local of the Python function becomes a definition parameterised by the
package-share resolution `pkgShare` (the embedding of
`get_package_share_directory`) and, where used, the process environment
`env` (the embedding of `os.environ`). -/

/-- `world_file_path = os.path.join(pkg_inspection_bot, 'worlds', 'industry.world')`. -/
def world_file_path (pkgShare : String → String) : String :=
  pkgShare "inspection_bot" ++ "/worlds/industry.world"

/-- `slam_config_path = os.path.join(pkg_inspection_bot, 'config', 'slam_config.yaml')`. -/
def slam_config_path (pkgShare : String → String) : String :=
  pkgShare "inspection_bot" ++ "/config/slam_config.yaml"

/-- `map_dir = os.path.join(get_package_share_directory('inspection_bot'), 'maps', 'my_map.yaml')`. -/
def map_dir (pkgShare : String → String) : String :=
  pkgShare "inspection_bot" ++ "/maps/my_map.yaml"

/-- `use_sim_time = LaunchConfiguration('use_sim_time', default='true')`. -/
def use_sim_time : Substitution :=
  .launchConfig "use_sim_time" "true"

/-- `gazebo = ExecuteProcess(cmd=['gazebo', '--verbose', world_file_path, '-s', 'libgazebo_ros_factory.so'], output='screen')`. -/
def gazebo (pkgShare : String → String) : Action :=
  .executeProcess
    ["gazebo", "--verbose", world_file_path pkgShare, "-s", "libgazebo_ros_factory.so"]
    "screen"

/-- `turtlebot3_model = os.environ.get('TURTLEBOT3_MODEL', 'waffle_pi')`. -/
def turtlebot3_model (env : String → Option String) : String :=
  (env "TURTLEBOT3_MODEL").getD "waffle_pi"

/-- `spawn_tb3 = IncludeLaunchDescription(PythonLaunchDescriptionSource(tb3_spawn_launch_file), launch_arguments={'model': turtlebot3_model}.items())`. -/
def spawn_tb3 (pkgShare : String → String) (env : String → Option String) : Action :=
  .includeLaunch
    (pkgShare "turtlebot3_gazebo" ++ "/launch/spawn_turtlebot3.launch.py")
    [("model", .text (turtlebot3_model env))]

/-- `slam_toolbox = Node(package='slam_toolbox', executable='async_slam_toolbox_node', name='slam_toolbox', output='screen', parameters=[slam_config_path, {'use_sim_time': True}])`. -/
def slam_toolbox (pkgShare : String → String) : Action :=
  .node "slam_toolbox" "async_slam_toolbox_node" (some "slam_toolbox") (some "screen")
    [.file (slam_config_path pkgShare), .dict [("use_sim_time", .b true)]] []

/-- `aruco_node = Node(package='ros2_aruco', executable='aruco_node', name="aruco_node")`. -/
def aruco_node : Action :=
  .node "ros2_aruco" "aruco_node" (some "aruco_node") none [] []

/-- `node_tf2_fp2laser = Node(name='tf2_ros_fp_laser', package='tf2_ros', executable='static_transform_publisher', output='screen', arguments=[...])`. -/
def node_tf2_fp2laser : Action :=
  .node "tf2_ros" "static_transform_publisher" (some "tf2_ros_fp_laser") (some "screen")
    [] ["0", "0", "0", "0.0", "0.0", "0.0", "base_footprint", "laser"]

/-- `node_tf2_fp2map`: static transform publisher from `base_footprint` to `map`. -/
def node_tf2_fp2map : Action :=
  .node "tf2_ros" "static_transform_publisher" (some "tf2_ros_fp_map") (some "screen")
    [] ["0", "0", "0", "0.0", "0.0", "0.0", "base_footprint", "map"]

/-- `node_tf2_fp2odom`: static transform publisher from `base_footprint` to `odom`. -/
def node_tf2_fp2odom : Action :=
  .node "tf2_ros" "static_transform_publisher" (some "tf2_ros_fp_odom") (some "screen")
    [] ["0", "0", "0", "0.0", "0.0", "0.0", "base_footprint", "odom"]

/-- `robot_state_publisher_cmd = IncludeLaunchDescription(..., launch_arguments={'use_sim_time': use_sim_time}.items())`. -/
def robot_state_publisher_cmd (pkgShare : String → String) : Action :=
  .includeLaunch
    (pkgShare "turtlebot3_gazebo" ++ "/launch" ++ "/robot_state_publisher.launch.py")
    [("use_sim_time", use_sim_time)]

/-- `nav_launch = IncludeLaunchDescription(..., launch_arguments={'map': map_dir, 'params_file': nav2_tb3 + '/params/nav2_params.yaml', 'use_sim_time': use_sim_time}.items())`. -/
def nav_launch (pkgShare : String → String) : Action :=
  .includeLaunch
    (pkgShare "nav2_bringup" ++ "/launch/bringup_launch.py")
    [("map", .text (map_dir pkgShare)),
     ("params_file", .text (pkgShare "nav2_bringup" ++ "/params/nav2_params.yaml")),
     ("use_sim_time", use_sim_time)]

/-- The returned `LaunchDescription([...])` list of `generate_launch_description`:
the function constructs `gazebo`, `spawn_tb3`, `slam_toolbox`, `aruco_node`,
the three `tf2` static transform publisher nodes, `robot_state_publisher_cmd`
and `nav_launch`, and returns the list below (which omits the three `tf2`
nodes). -/
def generate_launch_description (pkgShare : String → String)
    (env : String → Option String) : List Action :=
  [gazebo pkgShare,
   spawn_tb3 pkgShare env,
   slam_toolbox pkgShare,
   aruco_node,
   robot_state_publisher_cmd pkgShare,
   nav_launch pkgShare]

/-- A fixed sample package-share resolution used for concrete evaluation. -/
def samplePkgShare : String → String :=
  fun p => "/opt/ros/share/" ++ p

/-- A sample environment with `TURTLEBOT3_MODEL` unset. -/
def sampleEnv : String → Option String :=
  fun _ => none

/-- Sample caller overrides supplying `use_sim_time:=false`. -/
def sampleOvr : String → Option String :=
  fun k => if k = "use_sim_time" then some "false" else none

end InspectionBot

namespace InspectionBot

/-- C1: the launch description does NOT hand every constructed action to the
runtime: the three `static_transform_publisher` nodes are constructed by
`generate_launch_description` but are not elements of the returned
`LaunchDescription` list, exhibited at a concrete package-share resolution
and environment. -/
theorem c1_counterexample_tf2_not_in_description :
    node_tf2_fp2laser ∉ generate_launch_description samplePkgShare sampleEnv ∧
    node_tf2_fp2map ∉ generate_launch_description samplePkgShare sampleEnv ∧
    node_tf2_fp2odom ∉ generate_launch_description samplePkgShare sampleEnv := by
  refine ⟨?_, ?_, ?_⟩ <;> decide

/-- C1 (amended): for every package-share resolution and environment, the
returned `LaunchDescription` list contains the physics simulator, the robot
spawner, the SLAM node, the ArUco detector, the robot-state publisher and the
navigation stack — but none of the three constructed
`static_transform_publisher` nodes. -/
theorem c1_launch_description_elements (pkgShare : String → String)
    (env : String → Option String) :
    gazebo pkgShare ∈ generate_launch_description pkgShare env ∧
    spawn_tb3 pkgShare env ∈ generate_launch_description pkgShare env ∧
    slam_toolbox pkgShare ∈ generate_launch_description pkgShare env ∧
    aruco_node ∈ generate_launch_description pkgShare env ∧
    robot_state_publisher_cmd pkgShare ∈ generate_launch_description pkgShare env ∧
    nav_launch pkgShare ∈ generate_launch_description pkgShare env ∧
    node_tf2_fp2laser ∉ generate_launch_description pkgShare env ∧
    node_tf2_fp2map ∉ generate_launch_description pkgShare env ∧
    node_tf2_fp2odom ∉ generate_launch_description pkgShare env := by
  refine ⟨?_, ?_, ?_, ?_, ?_, ?_, ?_, ?_, ?_⟩ <;>
    simp [generate_launch_description, gazebo, spawn_tb3, slam_toolbox, aruco_node,
      robot_state_publisher_cmd, nav_launch, node_tf2_fp2laser, node_tf2_fp2map,
      node_tf2_fp2odom]

/-- C2: in the launch list handed to the runtime, the simulator (`gazebo`)
appears at an earlier position than the robot spawner (`spawn_tb3`), which
appears at an earlier position than the navigation stack (`nav_launch`), for
every package-share resolution and environment. -/
theorem c2_simulator_before_spawner_before_nav (pkgShare : String → String)
    (env : String → Option String) :
    ∃ i j k : Nat, i < j ∧ j < k ∧
      (generate_launch_description pkgShare env).get? i = some (gazebo pkgShare) ∧
      (generate_launch_description pkgShare env).get? j = some (spawn_tb3 pkgShare env) ∧
      (generate_launch_description pkgShare env).get? k = some (nav_launch pkgShare) := by
  exact ⟨0, 1, 5, by omega, by omega, rfl, rfl, rfl⟩

/-- C3: the caller-supplied command-line override does NOT have highest
precedence for every unit: with the caller supplying `use_sim_time:=false`,
the value reaching the SLAM node's effective parameters is still `"true"`
(its per-spec literal `{'use_sim_time': True}` wins over the caller), at a
concrete package-share resolution. -/
theorem c3_counterexample_slam_ignores_override :
    sampleOvr "use_sim_time" = some "false" ∧
    (slam_toolbox samplePkgShare).lookupParam sampleOvr "use_sim_time" = some "true" := by
  exact ⟨rfl, rfl⟩

/-- C3 (amended): a caller-supplied `use_sim_time` override reaches exactly
the units that refer to the `use_sim_time` launch configuration — the
robot-state publisher and the navigation stack — while the SLAM node's
`use_sim_time` is the literal `true` regardless of the caller, and the
simulator, the spawner and the ArUco detector receive no `use_sim_time`
parameter at all. -/
theorem c3_override_reaches_only_config_users (pkgShare : String → String)
    (env : String → Option String) (ovr : String → Option String) (v : String)
    (h : ovr "use_sim_time" = some v) :
    (robot_state_publisher_cmd pkgShare).lookupParam ovr "use_sim_time" = some v ∧
    (nav_launch pkgShare).lookupParam ovr "use_sim_time" = some v ∧
    (slam_toolbox pkgShare).lookupParam ovr "use_sim_time" = some "true" ∧
    (gazebo pkgShare).lookupParam ovr "use_sim_time" = none ∧
    (spawn_tb3 pkgShare env).lookupParam ovr "use_sim_time" = none ∧
    aruco_node.lookupParam ovr "use_sim_time" = none := by
  refine ⟨?_, ?_, rfl, rfl, ?_, rfl⟩ <;>
    simp [robot_state_publisher_cmd, nav_launch, spawn_tb3, Action.lookupParam,
      use_sim_time, Substitution.resolve, h]

/-- Witness for C3 (amended) at the sample inputs. -/
theorem c3_override_reaches_only_config_users_witness :
    (robot_state_publisher_cmd samplePkgShare).lookupParam sampleOvr "use_sim_time"
        = some "false" ∧
    (nav_launch samplePkgShare).lookupParam sampleOvr "use_sim_time" = some "false" ∧
    (slam_toolbox samplePkgShare).lookupParam sampleOvr "use_sim_time" = some "true" ∧
    (gazebo samplePkgShare).lookupParam sampleOvr "use_sim_time" = none ∧
    (spawn_tb3 samplePkgShare sampleEnv).lookupParam sampleOvr "use_sim_time" = none ∧
    aruco_node.lookupParam sampleOvr "use_sim_time" = none :=
  c3_override_reaches_only_config_users samplePkgShare sampleEnv sampleOvr "false" rfl

/-- C5: NOT every launched unit receives a use-simulated-time flag among its
named parameters: the ArUco detector is an element of the launch description
yet receives no `use_sim_time` parameter (nor does the simulator process),
exhibited at concrete inputs. -/
theorem c5_counterexample_aruco_no_sim_time :
    aruco_node ∈ generate_launch_description samplePkgShare sampleEnv ∧
    aruco_node.lookupParam sampleOvr "use_sim_time" = none ∧
    (gazebo samplePkgShare).lookupParam sampleOvr "use_sim_time" = none := by
  refine ⟨by decide, rfl, rfl⟩

/-- C5 (amended): the SLAM node, the robot-state publisher and the navigation
stack receive a boolean `use_sim_time` flag, while the simulator, the spawner
and the ArUco detector receive none; and the path-valued parameters — the
world description file, the map file, the navigation parameter file and the
SLAM configuration file — are passed through verbatim as opaque strings, for
every package-share resolution, environment and caller override. -/
theorem c5_sim_time_and_opaque_paths (pkgShare : String → String)
    (env : String → Option String) (ovr : String → Option String) :
    (slam_toolbox pkgShare).lookupParam ovr "use_sim_time" = some "true" ∧
    (robot_state_publisher_cmd pkgShare).lookupParam ovr "use_sim_time"
        = some ((ovr "use_sim_time").getD "true") ∧
    (nav_launch pkgShare).lookupParam ovr "use_sim_time"
        = some ((ovr "use_sim_time").getD "true") ∧
    (gazebo pkgShare).lookupParam ovr "use_sim_time" = none ∧
    (spawn_tb3 pkgShare env).lookupParam ovr "use_sim_time" = none ∧
    aruco_node.lookupParam ovr "use_sim_time" = none ∧
    gazebo pkgShare = .executeProcess
      ["gazebo", "--verbose", world_file_path pkgShare, "-s", "libgazebo_ros_factory.so"]
      "screen" ∧
    (nav_launch pkgShare).lookupParam ovr "map" = some (map_dir pkgShare) ∧
    (nav_launch pkgShare).lookupParam ovr "params_file"
        = some (pkgShare "nav2_bringup" ++ "/params/nav2_params.yaml") ∧
    slam_toolbox pkgShare = .node "slam_toolbox" "async_slam_toolbox_node"
      (some "slam_toolbox") (some "screen")
      [.file (slam_config_path pkgShare), .dict [("use_sim_time", .b true)]] [] := by
  refine ⟨rfl, ?_, ?_, rfl, ?_, rfl, rfl, ?_, ?_, rfl⟩ <;>
    simp [robot_state_publisher_cmd, nav_launch, spawn_tb3, Action.lookupParam,
      use_sim_time, Substitution.resolve, map_dir]

/-- C9: the robot-model launch argument handed to the spawner equals the
`TURTLEBOT3_MODEL` environment variable when it is set, and `"waffle_pi"`
when it is unset. -/
theorem c9_spawner_model_from_environment (pkgShare : String → String)
    (env : String → Option String) (ovr : String → Option String) :
    (∀ m : String, env "TURTLEBOT3_MODEL" = some m →
      (spawn_tb3 pkgShare env).lookupParam ovr "model" = some m) ∧
    (env "TURTLEBOT3_MODEL" = none →
      (spawn_tb3 pkgShare env).lookupParam ovr "model" = some "waffle_pi") := by
  constructor
  · intro m hm
    simp [spawn_tb3, Action.lookupParam, turtlebot3_model, hm, Substitution.resolve]
  · intro hm
    simp [spawn_tb3, Action.lookupParam, turtlebot3_model, hm, Substitution.resolve]

/-- Witness for C9 at a set and an unset environment. -/
theorem c9_spawner_model_from_environment_witness :
    (spawn_tb3 samplePkgShare
        (fun k => if k = "TURTLEBOT3_MODEL" then some "burger" else none)).lookupParam
        sampleOvr "model" = some "burger" ∧
    (spawn_tb3 samplePkgShare sampleEnv).lookupParam sampleOvr "model"
        = some "waffle_pi" :=
  ⟨(c9_spawner_model_from_environment samplePkgShare
      (fun k => if k = "TURTLEBOT3_MODEL" then some "burger" else none) sampleOvr).1
      "burger" rfl,
   (c9_spawner_model_from_environment samplePkgShare sampleEnv sampleOvr).2 rfl⟩

/-- C10: `generate_launch_description` depends on the process environment only
through `TURTLEBOT3_MODEL`: with the same package-share resolution, any two
environments agreeing on `TURTLEBOT3_MODEL` yield identical launch
descriptions (which also gives determinism: the output is a pure function of
these inputs). -/
theorem c10_env_noninterference (pkgShare : String → String)
    (env₁ env₂ : String → Option String)
    (h : env₁ "TURTLEBOT3_MODEL" = env₂ "TURTLEBOT3_MODEL") :
    generate_launch_description pkgShare env₁
      = generate_launch_description pkgShare env₂ := by
  simp [generate_launch_description, spawn_tb3, turtlebot3_model, h]

/-- Witness for C10: two environments that differ on every variable except
`TURTLEBOT3_MODEL` (both leaving it unset) produce the same description. -/
theorem c10_env_noninterference_witness :
    generate_launch_description samplePkgShare
        (fun k => if k = "TURTLEBOT3_MODEL" then none else some "a")
      = generate_launch_description samplePkgShare
        (fun k => if k = "TURTLEBOT3_MODEL" then none else some "b") :=
  c10_env_noninterference samplePkgShare _ _ (by simp)

/-! ## Parameter Broker (orchestration core)

The specification's Parameter Broker has no implementation under the
repository's sources; the definitions below are modelled from the
specification's words. -/

/-- Modelled from the spec: a `ParameterSet` value — string, boolean, numeric
or file-path. -/
inductive PValue where
  | str (s : String)
  | bool (b : Bool)
  | num (n : Int)
  | path (p : String)
  deriving DecidableEq, Repr

/-- Modelled from the spec: a `ParameterSet`, a mapping from parameter name to
value, represented as an association list. -/
def ParameterSet : Type := List (String × PValue)

/-- Look up a parameter by name. -/
def lookupP : ParameterSet → String → Option PValue
  | [], _ => none
  | (k', v') :: rest, k => if k' = k then some v' else lookupP rest k

/-- Set one key to a value, replacing the existing binding in place when the
key is present and appending otherwise. -/
def setP : ParameterSet → String → PValue → ParameterSet
  | [], k, v => [(k, v)]
  | (k', v') :: rest, k, v =>
      if k' = k then (k, v) :: rest else (k', v') :: setP rest k v

/-- Modelled from the spec: apply overrides to a base set key-by-key, later
wins; the inputs themselves are not mutated (the result is a fresh value). -/
def applyOverrides (base ovr : ParameterSet) : ParameterSet :=
  ovr.foldl (fun acc kv => setP acc kv.1 kv.2) base

/-- Modelled from the spec: `effectiveParameters` — start from session
defaults, then apply spec-level overrides key-by-key (later wins), then apply
any caller-supplied command-line override (highest precedence); a pure
function of its three inputs. -/
def effectiveParameters (defaults specOvr cmdline : ParameterSet) : ParameterSet :=
  applyOverrides (applyOverrides defaults specOvr) cmdline

theorem lookupP_setP_self (ps : ParameterSet) (k : String) (v : PValue) :
    lookupP (setP ps k v) k = some v := by
  induction ps with
  | nil => simp [setP, lookupP]
  | cons hd tl ih =>
      by_cases h : hd.1 = k
      · simp [setP, h, lookupP]
      · simp [setP, h, lookupP, ih]

theorem lookupP_setP_other (ps : ParameterSet) (k k' : String) (v : PValue)
    (h : k' ≠ k) : lookupP (setP ps k' v) k = lookupP ps k := by
  induction ps with
  | nil => simp [setP, lookupP, h]
  | cons hd tl ih =>
      by_cases h' : hd.1 = k'
      · have hk : hd.1 ≠ k := by rw [h']; exact h
        simp [setP, h', lookupP, h, hk]
      · simp [setP, h', lookupP, ih]

theorem lookupP_eq_none_of_not_mem (ps : ParameterSet) (k : String)
    (h : k ∉ ps.map Prod.fst) : lookupP ps k = none := by
  induction ps with
  | nil => rfl
  | cons hd tl ih =>
      simp only [List.map_cons, List.mem_cons] at h
      push_neg at h
      simp [lookupP, Ne.symm h.1, ih h.2]

/-- Key lemma: with duplicate-free override keys, a lookup in the merged set
takes the override's binding when present and the base's binding otherwise. -/
theorem lookupP_applyOverrides (ovr : ParameterSet) (base : ParameterSet) (k : String)
    (hnd : (ovr.map Prod.fst).Nodup) :
    lookupP (applyOverrides base ovr) k
      = match lookupP ovr k with
        | some v => some v
        | none => lookupP base k := by
  induction ovr generalizing base with
  | nil => simp [applyOverrides, lookupP]
  | cons hd tl ih =>
      simp only [List.map_cons, List.nodup_cons] at hnd
      have step : applyOverrides base (hd :: tl)
          = applyOverrides (setP base hd.1 hd.2) tl := rfl
      rw [step, ih _ hnd.2]
      by_cases h : hd.1 = k
      · subst h
        have : lookupP tl hd.1 = none :=
          lookupP_eq_none_of_not_mem tl hd.1 hnd.1
        simp [lookupP, this, lookupP_setP_self]
      · simp [lookupP, h, lookupP_setP_other base k hd.1 hd.2 h]

/-- C4: with duplicate-free keys, a per-spec override wins over the session
default for that key in that spec's merged view; a spec's effective
parameters are computed freshly from the unchanged session defaults, so a key
the spec does not override retains the session default — in particular a spec
overriding `use_sim_time := false` sees `false` while a spec without that
override sees the session default `true`. -/
theorem c4_spec_override_wins (defaults ovrC ovrD : ParameterSet)
    (hC : (ovrC.map Prod.fst).Nodup) (hD : (ovrD.map Prod.fst).Nodup) :
    (∀ k v, lookupP ovrC k = some v →
      lookupP (effectiveParameters defaults ovrC []) k = some v) ∧
    (∀ k, k ∉ ovrD.map Prod.fst →
      lookupP (effectiveParameters defaults ovrD []) k = lookupP defaults k) ∧
    (∀ k, lookupP defaults k = some (.bool true) →
      lookupP ovrC k = some (.bool false) →
      k ∉ ovrD.map Prod.fst →
      lookupP (effectiveParameters defaults ovrC []) k = some (.bool false) ∧
      lookupP (effectiveParameters defaults ovrD []) k = some (.bool true)) := by
  have baseC : ∀ k, lookupP (effectiveParameters defaults ovrC []) k
      = match lookupP ovrC k with
        | some v => some v
        | none => lookupP defaults k := by
    intro k
    simp only [effectiveParameters, applyOverrides, List.foldl_nil]
    exact lookupP_applyOverrides ovrC defaults k hC
  have baseD : ∀ k, lookupP (effectiveParameters defaults ovrD []) k
      = match lookupP ovrD k with
        | some v => some v
        | none => lookupP defaults k := by
    intro k
    simp only [effectiveParameters, applyOverrides, List.foldl_nil]
    exact lookupP_applyOverrides ovrD defaults k hD
  refine ⟨fun k v hv => ?_, fun k hk => ?_, fun k hdef hC' hk => ?_⟩
  · rw [baseC k, hv]
  · rw [baseD k, lookupP_eq_none_of_not_mem ovrD k hk]
  · constructor
    · rw [baseC k, hC']
    · rw [baseD k, lookupP_eq_none_of_not_mem ovrD k hk, hdef]

/-- Witness for C4: session default `use_sim_time = true`, spec C overrides it
to `false`, spec D has no override — C's effective view is `false`, D's
retains `true`. -/
theorem c4_spec_override_wins_witness :
    lookupP (effectiveParameters [("use_sim_time", .bool true)]
        [("use_sim_time", .bool false)] []) "use_sim_time" = some (.bool false) ∧
    lookupP (effectiveParameters [("use_sim_time", .bool true)] [] [])
        "use_sim_time" = some (.bool true) :=
  (c4_spec_override_wins [("use_sim_time", .bool true)]
      [("use_sim_time", .bool false)] [] (by simp) (by simp)).2.2
    "use_sim_time" rfl rfl (by simp)

/-! ## Dependency Resolver (orchestration core)

The specification's Dependency Resolver has no implementation under the
repository's sources; the definitions below are modelled from the
specification's words: a depth-first topological sort over `ProcessSpec`s
with cycle detection via a three-colour marking scheme (unvisited /
in-progress / done), iterating roots in registration order. -/

/-- Modelled from the spec: a `ProcessSpec` as far as resolution is concerned
— its unique name and the names of the specs that must be running before it. -/
structure PSpec where
  name : String
  deps : List String
  deriving DecidableEq, Repr

/-- The registration-order list of spec names. -/
def specNames (specs : List PSpec) : List String :=
  specs.map PSpec.name

/-- Modelled from the spec: the resolution/registration-phase error taxonomy. -/
inductive RErr where
  | duplicateName (n : String)
  | notFound (n : String)
  | danglingDependency (n : String)
  | cyclicDependency (cycle : List String)
  | fuelExhausted
  deriving DecidableEq, Repr

/-- Look a spec up by name (first registered match). -/
def findSpec (specs : List PSpec) (n : String) : Option PSpec :=
  specs.find? (fun s => s.name = n)

/-- `depRel specs a b`: spec `a` declares a dependency on `b` (`b` must be
running before `a`). -/
def depRel (specs : List PSpec) (a b : String) : Prop :=
  ∃ s ∈ specs, s.name = a ∧ b ∈ s.deps

instance (specs : List PSpec) (a b : String) : Decidable (depRel specs a b) := by
  unfold depRel
  infer_instance

/-- Modelled from the spec: visit a worklist of nodes left to right with a
single-node visitor `f`, threading the emitted order through and stopping at
the first error. -/
def visitList (f : List String → List String → String → Except RErr (List String)) :
    List String → List String → List String → Except RErr (List String)
  | _, out, [] => .ok out
  | gray, out, d :: ds =>
      match f gray out d with
      | .error e => .error e
      | .ok out' => visitList f gray out' ds

/-- Modelled from the spec: the depth-first visit of the three-colour
topological sort. `gray` is the in-progress stack (a node met again while
gray closes a cycle), `out` the done list in emission order; a node's
dependencies are visited before the node itself is appended. The fuel only
bounds recursion depth; `resolve` supplies enough for any session. -/
def visit (specs : List PSpec) : Nat → List String → List String → String →
    Except RErr (List String)
  | fuel, gray, out, n =>
    if n ∈ out then .ok out
    else if n ∈ gray then .error (.cyclicDependency (n :: gray))
    else
      match fuel with
      | 0 => .error .fuelExhausted
      | fuel' + 1 =>
          match findSpec specs n with
          | none => .error (.danglingDependency n)
          | some s =>
              match visitList (visit specs fuel') (n :: gray) out s.deps with
              | .error e => .error e
              | .ok out' => .ok (out' ++ [n])

/-- Modelled from the spec: `resolve` returns a topological start order over
the registered specs, visiting roots in registration order, failing with
`cyclicDependency` on a dependency cycle and `danglingDependency` on an
unregistered dependency name. -/
def resolve (specs : List PSpec) : Except RErr (List String) :=
  visitList (visit specs (specs.length + 1)) [] [] (specNames specs)

/-- `okOrderAux specs seen l`: every node of `l` has all of its declared
dependencies among `seen` or strictly earlier in `l`. -/
def okOrderAux (specs : List PSpec) : List String → List String → Prop
  | _, [] => True
  | seen, n :: rest =>
      (∀ s, findSpec specs n = some s → ∀ d ∈ s.deps, d ∈ seen) ∧
      okOrderAux specs (seen ++ [n]) rest

theorem okOrderAux_append (specs : List PSpec) (n : String) :
    ∀ (l seen : List String), okOrderAux specs seen l →
      (∀ s, findSpec specs n = some s → ∀ d ∈ s.deps, d ∈ seen ++ l) →
      okOrderAux specs seen (l ++ [n]) := by
  intro l
  induction l with
  | nil =>
      intro seen _ hdeps
      refine ⟨fun s hs d hd => ?_, trivial⟩
      simpa using hdeps s hs d hd
  | cons a l ih =>
      intro seen hok hdeps
      refine ⟨hok.1, ih (seen ++ [a]) hok.2 fun s hs d hd => ?_⟩
      have := hdeps s hs d hd
      simpa [List.append_assoc] using this

theorem okOrderAux_decomp (specs : List PSpec) (n : String) (l₂ : List String) :
    ∀ (l₁ seen : List String), okOrderAux specs seen (l₁ ++ n :: l₂) →
      ∀ s, findSpec specs n = some s → ∀ d ∈ s.deps, d ∈ seen ++ l₁ := by
  intro l₁
  induction l₁ with
  | nil =>
      intro seen hok s hs d hd
      simpa using hok.1 s hs d hd
  | cons a l₁ ih =>
      intro seen hok s hs d hd
      have := ih (seen ++ [a]) hok.2 s hs d hd
      simpa [List.append_assoc] using this

/-- The soundness contract of a single-node visitor: on success the emitted
list only grows (by nodes that were not in progress), contains the visited
node, and stays duplicate-free and dependency-closed. -/
def SoundStep (specs : List PSpec)
    (f : List String → List String → String → Except RErr (List String)) : Prop :=
  ∀ gray out n out', f gray out n = .ok out' →
    (∃ ext, out' = out ++ ext ∧ ∀ x ∈ ext, x ∉ gray) ∧
    n ∈ out' ∧
    (out.Nodup → out'.Nodup) ∧
    (okOrderAux specs [] out → okOrderAux specs [] out')

theorem visitList_sound (specs : List PSpec)
    (f : List String → List String → String → Except RErr (List String))
    (hf : SoundStep specs f) (gray : List String) :
    ∀ (ds out out' : List String), visitList f gray out ds = .ok out' →
      (∃ ext, out' = out ++ ext ∧ ∀ x ∈ ext, x ∉ gray) ∧
      (∀ d ∈ ds, d ∈ out') ∧
      (out.Nodup → out'.Nodup) ∧
      (okOrderAux specs [] out → okOrderAux specs [] out') := by
  intro ds
  induction ds with
  | nil =>
      intro out out' h
      obtain rfl : out = out' := by simpa [visitList] using h
      exact ⟨⟨[], by simp⟩, by simp, id, id⟩
  | cons d ds ih =>
      intro out out' h
      simp only [visitList] at h
      rcases hstep : f gray out d with e | out₁
      · rw [hstep] at h; cases h
      · rw [hstep] at h
        obtain ⟨⟨ext₁, hext₁, hg₁⟩, hmem₁, hnd₁, hok₁⟩ := hf gray out d out₁ hstep
        obtain ⟨⟨ext₂, hext₂, hg₂⟩, hmem₂, hnd₂, hok₂⟩ := ih out₁ out' h
        refine ⟨⟨ext₁ ++ ext₂, by simp [hext₂, hext₁], ?_⟩, ?_, fun hnd => hnd₂ (hnd₁ hnd),
          fun hok => hok₂ (hok₁ hok)⟩
        · intro x hx
          rcases List.mem_append.1 hx with hx | hx
          · exact hg₁ x hx
          · exact hg₂ x hx
        · intro a ha
          rcases List.mem_cons.1 ha with rfl | ha
          · rw [hext₂]; exact List.mem_append_left _ hmem₁
          · exact hmem₂ a ha

theorem visit_sound (specs : List PSpec) :
    ∀ fuel, SoundStep specs (visit specs fuel) := by
  intro fuel
  induction fuel with
  | zero =>
      intro gray out n out' h
      by_cases hout : n ∈ out
      · obtain rfl : out = out' := by simpa [visit, hout] using h
        exact ⟨⟨[], by simp⟩, hout, id, id⟩
      · by_cases hgray : n ∈ gray <;> simp [visit, hout, hgray] at h
  | succ fuel ih =>
      intro gray out n out' h
      by_cases hout : n ∈ out
      · obtain rfl : out = out' := by simpa [visit, hout] using h
        exact ⟨⟨[], by simp⟩, hout, id, id⟩
      by_cases hgray : n ∈ gray
      · simp [visit, hout, hgray] at h
      simp only [visit, if_neg hout, if_neg hgray] at h
      rcases hfind : findSpec specs n with _ | s
      · simp [hfind] at h
      simp only [hfind] at h
      rcases hlist : visitList (visit specs fuel) (n :: gray) out s.deps with e | out₁
      · simp [hlist] at h
      simp only [hlist] at h
      obtain rfl : out₁ ++ [n] = out' := by simpa using h
      obtain ⟨⟨ext₁, hext₁, hg₁⟩, hmem₁, hnd₁, hok₁⟩ :=
        visitList_sound specs (visit specs fuel) ih (n :: gray) s.deps out out₁ hlist
      have hn₁ : n ∉ out₁ := by
        rw [hext₁]
        intro hmem
        rcases List.mem_append.1 hmem with hx | hx
        · exact hout hx
        · exact hg₁ n hx (List.mem_cons_self n gray)
      refine ⟨⟨ext₁ ++ [n], by simp [hext₁], ?_⟩, by simp, ?_, ?_⟩
      · intro x hx
        rcases List.mem_append.1 hx with hx | hx
        · intro hxg
          exact hg₁ x hx (List.mem_cons_of_mem n hxg)
        · rcases List.mem_singleton.1 hx with rfl
          exact hgray
      · intro hnd
        exact List.Nodup.append (hnd₁ hnd) (List.nodup_singleton n)
          (by simpa [List.disjoint_singleton] using hn₁)
      · intro hok
        refine okOrderAux_append specs n out₁ [] (hok₁ hok) fun s' hs' d hd => ?_
        rw [hfind] at hs'
        cases hs'
        simpa using hmem₁ d hd

/-- On success, `resolve` yields a duplicate-free order that contains every
registered name and is dependency-closed: each emitted node's declared
dependencies appear strictly earlier. -/
theorem resolve_sound (specs : List PSpec) (l : List String)
    (h : resolve specs = .ok l) :
    l.Nodup ∧ (∀ x ∈ specNames specs, x ∈ l) ∧ okOrderAux specs [] l := by
  obtain ⟨⟨ext, hext, _⟩, hmem, hnd, hok⟩ :=
    visitList_sound specs (visit specs (specs.length + 1)) (visit_sound specs _)
      [] (specNames specs) [] l h
  exact ⟨hnd List.nodup_nil, hmem, hok trivial⟩

theorem findSpec_mem (specs : List PSpec) (n : String) (h : n ∈ specNames specs) :
    ∃ s, findSpec specs n = some s ∧ s ∈ specs ∧ s.name = n := by
  induction specs with
  | nil => simp [specNames] at h
  | cons hd tl ih =>
      by_cases hh : hd.name = n
      · exact ⟨hd, by simp [findSpec, List.find?_cons, hh], List.mem_cons_self hd tl, hh⟩
      · have h' : n ∈ specNames tl := by
          rcases List.mem_cons.1 h with h | h
          · exact absurd h.symm hh
          · exact h
        obtain ⟨s, hfind, hmem, hname⟩ := ih h'
        refine ⟨s, ?_, List.mem_cons_of_mem hd hmem, hname⟩
        simpa [findSpec, List.find?_cons, hh] using hfind

theorem findSpec_eq_of_nodup (specs : List PSpec) (s : PSpec)
    (hnd : (specNames specs).Nodup) (hmem : s ∈ specs) :
    findSpec specs s.name = some s := by
  induction specs with
  | nil => cases hmem
  | cons hd tl ih =>
      rcases List.mem_cons.1 hmem with rfl | hmem'
      · simp [findSpec, List.find?_cons]
      · simp only [specNames, List.map_cons, List.nodup_cons] at hnd
        have hh : hd.name ≠ s.name := by
          intro he
          exact hnd.1 (by rw [he]; exact List.mem_map_of_mem PSpec.name hmem')
        have := ih hnd.2 hmem'
        simpa [findSpec, List.find?_cons, hh] using this

theorem visitList_total
    (f : List String → List String → String → Except RErr (List String))
    (gray : List String) (P : String → Prop)
    (hf : ∀ out n, P n → ∃ out', f gray out n = .ok out') :
    ∀ (ds out : List String), (∀ d ∈ ds, P d) →
      ∃ out', visitList f gray out ds = .ok out' := by
  intro ds
  induction ds with
  | nil => exact fun out _ => ⟨out, rfl⟩
  | cons d ds ih =>
      intro out hP
      obtain ⟨out₁, h₁⟩ := hf out d (hP d (List.mem_cons_self d ds))
      obtain ⟨out', h₂⟩ := ih out₁ fun x hx => hP x (List.mem_cons_of_mem d hx)
      exact ⟨out', by simp [visitList, h₁, h₂]⟩

theorem visit_total (specs : List PSpec) (rank : String → Nat)
    (hreg : ∀ s ∈ specs, ∀ d ∈ s.deps, d ∈ specNames specs)
    (hrank : ∀ s ∈ specs, ∀ d ∈ s.deps, rank d < rank s.name) :
    ∀ (fuel : Nat) (gray out : List String) (n : String), gray.Nodup →
      (∀ g ∈ gray, g ∈ specNames specs) →
      specs.length < fuel + gray.length →
      n ∈ specNames specs → (∀ g ∈ gray, rank n < rank g) →
      ∃ out', visit specs fuel gray out n = .ok out' := by
  intro fuel
  induction fuel with
  | zero =>
      intro gray out n hgnd hgsub hbound hn hrk
      by_cases hout : n ∈ out
      · exact ⟨out, by simp [visit, hout]⟩
      by_cases hgray : n ∈ gray
      · exact absurd (hrk n hgray) (lt_irrefl _)
      exfalso
      have hlen : gray.length ≤ (specNames specs).length :=
        (hgnd.subperm hgsub).length_le
      have hspec : (specNames specs).length = specs.length := by simp [specNames]
      omega
  | succ fuel ih =>
      intro gray out n hgnd hgsub hbound hn hrk
      by_cases hout : n ∈ out
      · exact ⟨out, by simp [visit, hout]⟩
      by_cases hgray : n ∈ gray
      · exact absurd (hrk n hgray) (lt_irrefl _)
      obtain ⟨s, hfind, hsmem, hsname⟩ := findSpec_mem specs n hn
      have hdrank : ∀ d ∈ s.deps, ∀ g ∈ n :: gray, rank d < rank g := by
        intro d hd g hg
        have hdn : rank d < rank n := hsname ▸ hrank s hsmem d hd
        rcases List.mem_cons.1 hg with rfl | hg
        · exact hdn
        · exact hdn.trans (hrk g hg)
      obtain ⟨out₁, hlist⟩ := visitList_total (visit specs fuel) (n :: gray)
        (fun d => d ∈ specNames specs ∧ ∀ g ∈ n :: gray, rank d < rank g)
        (fun o d hd => ih (n :: gray) o d
          (List.nodup_cons.2 ⟨hgray, hgnd⟩)
          (List.forall_mem_cons.2 ⟨hn, hgsub⟩)
          (by simp only [List.length_cons]; omega)
          hd.1 hd.2)
        s.deps out (fun d hd => ⟨hreg s hsmem d hd, hdrank d hd⟩)
      exact ⟨out₁ ++ [n], by simp [visit, hout, hgray, hfind, hlist]⟩

theorem visitList_okOrCyclic
    (f : List String → List String → String → Except RErr (List String))
    (gray : List String) (P : String → Prop)
    (hf : ∀ out n, P n → (∃ out', f gray out n = .ok out') ∨
      (∃ c, f gray out n = .error (.cyclicDependency c))) :
    ∀ (ds out : List String), (∀ d ∈ ds, P d) →
      (∃ out', visitList f gray out ds = .ok out') ∨
      (∃ c, visitList f gray out ds = .error (.cyclicDependency c)) := by
  intro ds
  induction ds with
  | nil => exact fun out _ => .inl ⟨out, rfl⟩
  | cons d ds ih =>
      intro out hP
      rcases hf out d (hP d (List.mem_cons_self d ds)) with ⟨out₁, h₁⟩ | ⟨c, h₁⟩
      · rcases ih out₁ (fun x hx => hP x (List.mem_cons_of_mem d hx)) with
          ⟨out', h₂⟩ | ⟨c, h₂⟩
        · exact .inl ⟨out', by simp [visitList, h₁, h₂]⟩
        · exact .inr ⟨c, by simp [visitList, h₁, h₂]⟩
      · exact .inr ⟨c, by simp [visitList, h₁]⟩

theorem visit_okOrCyclic (specs : List PSpec)
    (hreg : ∀ s ∈ specs, ∀ d ∈ s.deps, d ∈ specNames specs) :
    ∀ (fuel : Nat) (gray out : List String) (n : String), gray.Nodup →
      (∀ g ∈ gray, g ∈ specNames specs) →
      specs.length < fuel + gray.length →
      n ∈ specNames specs →
      (∃ out', visit specs fuel gray out n = .ok out') ∨
      (∃ c, visit specs fuel gray out n = .error (.cyclicDependency c)) := by
  intro fuel
  induction fuel with
  | zero =>
      intro gray out n hgnd hgsub hbound hn
      by_cases hout : n ∈ out
      · exact .inl ⟨out, by simp [visit, hout]⟩
      by_cases hgray : n ∈ gray
      · exact .inr ⟨n :: gray, by simp [visit, hout, hgray]⟩
      exfalso
      have hlen : gray.length ≤ (specNames specs).length :=
        (hgnd.subperm hgsub).length_le
      have hspec : (specNames specs).length = specs.length := by simp [specNames]
      omega
  | succ fuel ih =>
      intro gray out n hgnd hgsub hbound hn
      by_cases hout : n ∈ out
      · exact .inl ⟨out, by simp [visit, hout]⟩
      by_cases hgray : n ∈ gray
      · exact .inr ⟨n :: gray, by simp [visit, hout, hgray]⟩
      obtain ⟨s, hfind, hsmem, _⟩ := findSpec_mem specs n hn
      rcases visitList_okOrCyclic (visit specs fuel) (n :: gray)
          (fun d => d ∈ specNames specs)
          (fun o d hd => ih (n :: gray) o d
            (List.nodup_cons.2 ⟨hgray, hgnd⟩)
            (List.forall_mem_cons.2 ⟨hn, hgsub⟩)
            (by simp only [List.length_cons]; omega)
            hd)
          s.deps out (fun d hd => hreg s hsmem d hd) with ⟨out₁, hlist⟩ | ⟨c, hlist⟩
      · exact .inl ⟨out₁ ++ [n], by simp [visit, hout, hgray, hfind, hlist]⟩
      · exact .inr ⟨c, by simp [visit, hout, hgray, hfind, hlist]⟩

theorem visitList_nodeps (specs : List PSpec)
    (hdeps : ∀ s ∈ specs, s.deps = []) (fuel : Nat) (gray : List String) :
    ∀ (ds out : List String), (∀ d ∈ ds, d ∈ specNames specs) → ds.Nodup →
      (∀ d ∈ ds, d ∉ out) → (∀ d ∈ ds, d ∉ gray) →
      visitList (visit specs (fuel + 1)) gray out ds = .ok (out ++ ds) := by
  intro ds
  induction ds with
  | nil => intro out _ _ _ _; simp [visitList]
  | cons d ds ih =>
      intro out hsub hnd hout hgray
      obtain ⟨s, hfind, hsmem, _⟩ :=
        findSpec_mem specs d (hsub d (List.mem_cons_self d ds))
      have hvisit : visit specs (fuel + 1) gray out d = .ok (out ++ [d]) := by
        simp [visit, hout d (List.mem_cons_self d ds),
          hgray d (List.mem_cons_self d ds), hfind, hdeps s hsmem, visitList]
      have htail : visitList (visit specs (fuel + 1)) gray (out ++ [d]) ds
          = .ok ((out ++ [d]) ++ ds) := by
        refine ih (out ++ [d]) (fun x hx => hsub x (List.mem_cons_of_mem d hx))
          (List.nodup_cons.1 hnd).2 (fun x hx => ?_)
          (fun x hx => hgray x (List.mem_cons_of_mem d hx))
        intro hmem
        rcases List.mem_append.1 hmem with hmem | hmem
        · exact hout x (List.mem_cons_of_mem d hx) hmem
        · rcases List.mem_singleton.1 hmem with rfl
          exact (List.nodup_cons.1 hnd).1 hx
      simp [visitList, hvisit, htail]

/-- On success with unique names, `resolve` emits every spec strictly after
all of its declared dependencies. -/
theorem resolve_order (specs : List PSpec) (hnd : (specNames specs).Nodup)
    (l : List String) (h : resolve specs = .ok l) :
    ∀ s ∈ specs, ∀ d ∈ s.deps, ∃ l₁ l₂, l = l₁ ++ s.name :: l₂ ∧ d ∈ l₁ := by
  obtain ⟨hlnd, hlmem, hlok⟩ := resolve_sound specs l h
  intro s hs d hd
  have hname : s.name ∈ l := hlmem s.name (List.mem_map_of_mem PSpec.name hs)
  obtain ⟨l₁, l₂, rfl⟩ := List.append_of_mem hname
  refine ⟨l₁, l₂, rfl, ?_⟩
  have := okOrderAux_decomp specs s.name l₂ l₁ [] hlok s
    (findSpec_eq_of_nodup specs s hnd hs) d hd
  simpa using this

theorem indexOf_lt_of_before (l : List String) (hlnd : l.Nodup) (a d : String)
    (l₁ l₂ : List String) (hdecomp : l = l₁ ++ a :: l₂) (hd : d ∈ l₁) :
    l.indexOf d < l.indexOf a := by
  subst hdecomp
  have ha : a ∉ l₁ := by
    intro hmem
    exact (List.nodup_append.1 hlnd).2.2 hmem (List.mem_cons_self a l₂)
  have hia : (l₁ ++ a :: l₂).indexOf a = l₁.length := by
    simp [List.indexOf_append_of_not_mem ha, List.indexOf_cons_self]
  have hid : (l₁ ++ a :: l₂).indexOf d = l₁.indexOf d :=
    List.indexOf_append_of_mem hd
  have hlt : l₁.indexOf d < l₁.length := List.indexOf_lt_length.2 hd
  omega

/-- Along a (transitive) dependency path, positions in a dependency-closed
order strictly decrease; hence no dependency cycle can coexist with such an
order. -/
theorem transGen_indexOf_lt (specs : List PSpec) (l : List String)
    (hord : ∀ s ∈ specs, ∀ d ∈ s.deps, ∃ l₁ l₂, l = l₁ ++ s.name :: l₂ ∧ d ∈ l₁)
    (hlnd : l.Nodup) :
    ∀ a b, Relation.TransGen (depRel specs) a b → l.indexOf b < l.indexOf a := by
  have edge : ∀ x y, depRel specs x y → l.indexOf y < l.indexOf x := by
    intro x y hxy
    obtain ⟨s, hs, hname, hdep⟩ := hxy
    obtain ⟨l₁, l₂, hdecomp, hmem⟩ := hord s hs y hdep
    rw [hname] at hdecomp
    exact indexOf_lt_of_before l hlnd x y l₁ l₂ hdecomp hmem
  intro a b h
  induction h with
  | single h => exact edge _ _ h
  | tail _ h₂ ih => exact (edge _ _ h₂).trans ih

/-! ### Process Supervisor and Launch Session (orchestration core)

Modelled from the spec: the session run phase starts units in resolved order
under the default FailFast policy, and the shutdown protocol repeatedly
terminates the most recently started unit that is still running. -/

/-- Modelled from the spec: the FailFast start phase over a resolved order —
units are initiated in order; the first spawn failure aborts the sequence, so
the result is the prefix of units that reached `Running`. -/
def startPhase (spawnOk : String → Bool) : List String → List String
  | [] => []
  | n :: rest => if spawnOk n then n :: startPhase spawnOk rest else []

/-- Modelled from the spec: the units a session ever starts — none at all
when resolution fails (resolution-phase errors are raised before any process
is spawned), otherwise the units the start phase reaches over the resolved
order. -/
def startedUnits (specs : List PSpec) (spawnOk : String → Bool) : List String :=
  match resolve specs with
  | .error _ => []
  | .ok l => startPhase spawnOk l

/-- C7: for every session with unique names and registered dependencies whose
dependency graph contains a cycle, `resolve` fails with `cyclicDependency`,
and the session starts no unit at all (the error precedes any spawn, for
every spawn behaviour). -/
theorem c7_cycle_rejected_before_spawn (specs : List PSpec)
    (hnd : (specNames specs).Nodup)
    (hreg : ∀ s ∈ specs, ∀ d ∈ s.deps, d ∈ specNames specs)
    (hcyc : ∃ x, Relation.TransGen (depRel specs) x x) :
    (∃ c, resolve specs = .error (.cyclicDependency c)) ∧
    (∀ spawnOk : String → Bool, startedUnits specs spawnOk = []) := by
  have hdisj := visitList_okOrCyclic (visit specs (specs.length + 1)) []
    (fun n => n ∈ specNames specs)
    (fun o n hn => visit_okOrCyclic specs hreg (specs.length + 1) [] o n
      List.nodup_nil (by simp) (by simp) hn)
    (specNames specs) [] (fun d hd => hd)
  rcases hdisj with ⟨l, hok⟩ | ⟨c, herr⟩
  · exfalso
    have hok' : resolve specs = .ok l := hok
    obtain ⟨hlnd, _, _⟩ := resolve_sound specs l hok'
    obtain ⟨x, hx⟩ := hcyc
    exact absurd
      (transGen_indexOf_lt specs l (resolve_order specs hnd l hok') hlnd x x hx)
      (lt_irrefl _)
  · have herr' : resolve specs = .error (.cyclicDependency c) := herr
    exact ⟨⟨c, herr'⟩, fun spawnOk => by simp [startedUnits, herr']⟩

/-- A session with a dependency cycle between A and B, used for concrete
evaluation. -/
def cycSpecs : List PSpec :=
  [⟨"A", ["B"]⟩, ⟨"B", ["A"]⟩]

/-- A session used for concrete evaluation: A with no dependencies, B
depending on A, C depending on A and B. -/
def demoSpecs : List PSpec :=
  [⟨"A", []⟩, ⟨"B", ["A"]⟩, ⟨"C", ["A", "B"]⟩]

/-- A rank function witnessing that `demoSpecs` is acyclic. -/
def demoRank : String → Nat :=
  fun n => if n = "B" then 1 else if n = "C" then 2 else 0

/-- An acyclic session exhibiting the tie-break failure: A depends on C,
while B and C are dependency-free (hence independent of each other), with B
registered before C. -/
def tieSpecs : List PSpec :=
  [⟨"A", ["C"]⟩, ⟨"B", []⟩, ⟨"C", []⟩]

/-- Witness for C7 at the concrete cyclic session `cycSpecs`. -/
theorem c7_cycle_rejected_before_spawn_witness :
    (∃ c, resolve cycSpecs = .error (.cyclicDependency c)) ∧
    (∀ spawnOk : String → Bool, startedUnits cycSpecs spawnOk = []) := by
  refine c7_cycle_rejected_before_spawn cycSpecs (by decide) (by decide) ⟨"A", ?_⟩
  have hab : depRel cycSpecs "A" "B" := by decide
  have hba : depRel cycSpecs "B" "A" := by decide
  exact Relation.TransGen.tail (Relation.TransGen.single hab) hba

/-- Modelled from the spec: the most recently started unit that is still
running — the unit the shutdown protocol terminates next. -/
def lastRunning (startedLog running : List String) : Option String :=
  (startedLog.filter (fun n => n ∈ running)).getLast?

/-- Modelled from the spec: the shutdown protocol — repeatedly terminate the
most recently started still-running unit until none remains; the result is
the sequence of terminations in the order they are issued. -/
def shutdownSeq (startedLog : List String) : Nat → List String → List String
  | 0, _ => []
  | fuel + 1, running =>
      match lastRunning startedLog running with
      | none => []
      | some n => n :: shutdownSeq startedLog fuel (running.erase n)

theorem startPhase_sublist (spawnOk : String → Bool) (l : List String) :
    List.Sublist (startPhase spawnOk l) l := by
  induction l with
  | nil => simp [startPhase]
  | cons n rest ih =>
      by_cases h : spawnOk n
      · simpa [startPhase, h] using ih.cons₂ n
      · simp [startPhase, h]

theorem filter_append_of_disjoint (R : List String) :
    ∀ l₁ l₂ : List String, (∀ a ∈ l₁, a ∈ R) → (∀ a ∈ l₂, a ∉ R) →
      (l₁ ++ l₂).filter (fun n => n ∈ R) = l₁ := by
  intro l₁
  induction l₁ with
  | nil =>
      intro l₂ _ h₂
      induction l₂ with
      | nil => rfl
      | cons b l₂ ih =>
          have hb : b ∉ R := h₂ b (List.mem_cons_self b l₂)
          simp only [List.nil_append, List.filter_cons, hb, decide_False,
            Bool.false_eq_true, if_false]
          simpa using ih fun a ha => h₂ a (List.mem_cons_of_mem b ha)
  | cons a l₁ ih =>
      intro l₂ h₁ h₂
      have ha : a ∈ R := h₁ a (List.mem_cons_self a l₁)
      simp only [List.cons_append, List.filter_cons, ha, decide_True, if_true]
      rw [ih l₂ (fun b hb => h₁ b (List.mem_cons_of_mem a hb)) h₂]

/-- Shutting down the prefix `pre` of started units within the full start log
`pre ++ suf` visits exactly `pre` reversed. -/
theorem shutdownSeq_prefix (pre : List String) :
    ∀ suf : List String, (pre ++ suf).Nodup →
      shutdownSeq (pre ++ suf) pre.length pre = pre.reverse := by
  induction pre using List.reverseRecOn with
  | nil => intro suf _; simp [shutdownSeq]
  | append_singleton pre' x ih =>
      intro suf hnd
      have hassoc : (pre' ++ [x]) ++ suf = pre' ++ (x :: suf) := by simp
      have hxpre : x ∉ pre' := by
        intro hmem
        rw [hassoc] at hnd
        exact (List.nodup_append.1 hnd).2.2 hmem (List.mem_cons_self x suf)
      have hsufnot : ∀ a ∈ suf, a ∉ pre' ++ [x] := by
        intro a ha hmem
        rw [hassoc] at hnd
        obtain ⟨-, hnxs, hdisj⟩ := List.nodup_append.1 hnd
        rcases List.mem_append.1 hmem with hmem | hmem
        · exact hdisj hmem (List.mem_cons_of_mem x ha)
        · rcases List.mem_singleton.1 hmem with rfl
          exact (List.nodup_cons.1 hnxs).1 ha
      have hfilter : ((pre' ++ [x]) ++ suf).filter (fun n => n ∈ pre' ++ [x])
          = pre' ++ [x] :=
        filter_append_of_disjoint (pre' ++ [x]) (pre' ++ [x]) suf
          (fun _ ha => ha) hsufnot
      have hlast : lastRunning (pre' ++ x :: suf) (pre' ++ [x]) = some x := by
        rw [lastRunning, ← hassoc, hfilter]
        exact List.getLast?_concat _
      have herase : (pre' ++ [x]).erase x = pre' := by
        rw [List.erase_append_right _ hxpre]
        simp
      have hlen : (pre' ++ [x]).length = pre'.length + 1 := by simp
      have hstep : shutdownSeq (pre' ++ x :: suf) (pre'.length + 1) (pre' ++ [x])
          = x :: shutdownSeq (pre' ++ x :: suf) pre'.length
              ((pre' ++ [x]).erase x) := by
        rw [shutdownSeq, hlast]
      rw [hlen, hassoc, hstep, herase, ih (x :: suf) (by rw [← hassoc]; exact hnd)]
      simp

theorem shutdownSeq_reverse (log : List String) (hnd : log.Nodup) :
    shutdownSeq log log.length log = log.reverse := by
  have := shutdownSeq_prefix log [] (by simpa using hnd)
  simpa using this

/-- C8: for every session with a resolved start order and every spawn
behaviour — including a mid-sequence FailFast abort, which truncates the
start phase at the first failing unit — the shutdown protocol terminates the
started units in exactly the reverse of the order they were started. -/
theorem c8_shutdown_reverse_order (specs : List PSpec) (spawnOk : String → Bool)
    (l : List String) (h : resolve specs = .ok l) :
    shutdownSeq (startPhase spawnOk l) (startPhase spawnOk l).length
        (startPhase spawnOk l)
      = (startPhase spawnOk l).reverse := by
  have hlnd : l.Nodup := (resolve_sound specs l h).1
  exact shutdownSeq_reverse _ (hlnd.sublist (startPhase_sublist spawnOk l))

/-- A spawn behaviour for concrete evaluation: unit C fails to spawn, so a
FailFast abort happens mid-sequence. -/
def demoSpawn : String → Bool :=
  fun n => !(n == "C")

/-- Witness for C8: `demoSpecs` resolves to [A, B, C]; C's spawn fails, so
the start phase reaches [A, B] and shutdown visits [B, A]. -/
theorem c8_shutdown_reverse_order_witness :
    shutdownSeq (startPhase demoSpawn ["A", "B", "C"])
        (startPhase demoSpawn ["A", "B", "C"]).length
        (startPhase demoSpawn ["A", "B", "C"])
      = (startPhase demoSpawn ["A", "B", "C"]).reverse :=
  c8_shutdown_reverse_order demoSpecs demoSpawn ["A", "B", "C"] rfl

/-- C6: the resolver does NOT break ties among independent specs by original
registration order on every acyclic graph: on `tieSpecs` (acyclic, with B
and C dependency-free and therefore independent) the resolved order places C
before B even though B is registered before C — the depth-first visit of A
pulls its dependency C into the output first. (No resolver could satisfy the
universal reading on this input either: registration order on the
independent pairs A-B and B-C demands A before B before C, while the
dependency demands C before A.) -/
theorem c6_counterexample_tiebreak_violated :
    resolve tieSpecs = .ok ["C", "A", "B"] ∧
    (specNames tieSpecs).indexOf "B" < (specNames tieSpecs).indexOf "C" ∧
    (["C", "A", "B"].indexOf "C" < ["C", "A", "B"].indexOf "B") ∧
    findSpec tieSpecs "B" = some ⟨"B", []⟩ ∧
    findSpec tieSpecs "C" = some ⟨"C", []⟩ ∧
    ¬ depRel tieSpecs "B" "C" ∧ ¬ depRel tieSpecs "C" "B" :=
  ⟨rfl, by decide, by decide, rfl, rfl, by decide, by decide⟩

/-- C6 (amended): for every session whose specs have unique names, registered
dependencies and an acyclic dependency graph (expressed by a rank function
decreasing along dependency edges, the standard equivalent of acyclicity on a
finite graph), `resolve` succeeds with an order in which every spec appears
strictly after all of its dependencies, and the result is deterministic
across repeated calls on the same input; ties are broken by original
registration order in the absence of dependency edges — when no spec has
dependencies the order is exactly the registration order — but not on
graphs with edges (see the counterexample above). -/
theorem c6_resolve_topological_order (specs : List PSpec)
    (hnd : (specNames specs).Nodup)
    (hreg : ∀ s ∈ specs, ∀ d ∈ s.deps, d ∈ specNames specs)
    (hacyc : ∃ rank : String → Nat, ∀ s ∈ specs, ∀ d ∈ s.deps, rank d < rank s.name) :
    (∃ l, resolve specs = .ok l ∧
      ∀ s ∈ specs, ∀ d ∈ s.deps, ∃ l₁ l₂, l = l₁ ++ s.name :: l₂ ∧ d ∈ l₁) ∧
    (∀ l₁ l₂, resolve specs = .ok l₁ → resolve specs = .ok l₂ → l₁ = l₂) ∧
    ((∀ s ∈ specs, s.deps = []) → resolve specs = .ok (specNames specs)) := by
  obtain ⟨rank, hrank⟩ := hacyc
  refine ⟨?_, ?_, ?_⟩
  · obtain ⟨l, hres⟩ := visitList_total (visit specs (specs.length + 1)) []
      (fun n => n ∈ specNames specs)
      (fun o n hn => visit_total specs rank hreg hrank (specs.length + 1) [] o n
        List.nodup_nil (by simp) (by simp) hn (by simp))
      (specNames specs) [] (fun d hd => hd)
    obtain ⟨hlnd, hlmem, hlok⟩ := resolve_sound specs l hres
    refine ⟨l, hres, fun s hs d hd => ?_⟩
    have hname : s.name ∈ l := hlmem s.name (List.mem_map_of_mem PSpec.name hs)
    obtain ⟨l₁, l₂, rfl⟩ := List.append_of_mem hname
    refine ⟨l₁, l₂, rfl, ?_⟩
    have := okOrderAux_decomp specs s.name l₂ l₁ [] hlok s
      (findSpec_eq_of_nodup specs s hnd hs) d hd
    simpa using this
  · intro l₁ l₂ h₁ h₂
    rw [h₁] at h₂
    simpa using h₂
  · intro hdeps
    have := visitList_nodeps specs hdeps specs.length [] (specNames specs) []
      (fun d hd => hd) hnd (by simp) (by simp)
    simpa [resolve] using this

/-- Witness for C6 at the concrete session `demoSpecs`. -/
theorem c6_resolve_topological_order_witness :
    (∃ l, resolve demoSpecs = .ok l ∧
      ∀ s ∈ demoSpecs, ∀ d ∈ s.deps, ∃ l₁ l₂, l = l₁ ++ s.name :: l₂ ∧ d ∈ l₁) ∧
    (∀ l₁ l₂, resolve demoSpecs = .ok l₁ → resolve demoSpecs = .ok l₂ → l₁ = l₂) ∧
    ((∀ s ∈ demoSpecs, s.deps = []) → resolve demoSpecs = .ok (specNames demoSpecs)) :=
  c6_resolve_topological_order demoSpecs (by decide) (by decide) ⟨demoRank, by decide⟩

end InspectionBot
